import Mathlib

/-!
# Verification of the bee-p transaction gossip and DAG engine

Shallow embedding of the core data structures and operations of the
`bee-p` repository (bee-tangle, bee-protocol, bee-bundle) together with
proofs about them.

Conventions:
* `Hash` values are modelled abstractly as `Nat` (the code compares hashes
  only for equality; their 243-trit structure is irrelevant to the claims).
* Concurrent maps (`DashMap`) are modelled as association lists with
  `DashMap::insert` semantics: replace-in-place when the key is present
  (returning the old value), append otherwise.
* The solidifier channel is modelled as the list of messages sent on it.
-/

set_option maxRecDepth 8000

namespace BeeP

abbrev Hash := Nat

/-- Modelled from the spec: the `Transaction` record of `bee-bundle` is not
under `src/` (only its users are). §3 of the spec lists its fields
{address, value (signed 64-bit), bundle-hash, trunk-hash, branch-hash, tag,
index, last-index, timestamp, nonce, signature-fragment}; a transaction is
a tail iff its `index` field is 0. Values are modelled as `Int`
(the claims under verification exercise no 64-bit overflow). -/
structure Transaction where
  address : Nat
  value : Int
  bundle : Nat
  trunk : Hash
  branch : Hash
  tag : Nat
  index : Nat
  lastIndex : Nat
  timestamp : Nat
  nonce : Nat
  signatureFragment : Nat
deriving DecidableEq, Repr

/-- Modelled from the spec: `bee-tangle/src/vertex.rs` is not under `src/`.
§3: a `Vertex` wraps a `Transaction` with a solid-flag and a milestone-flag
(plus a shared handle to the transaction, modelled by returning the
transaction itself from `get_ref_to_inner`). -/
structure Vertex where
  transaction : Transaction
  hash : Hash
  solid : Bool
  milestone : Bool
deriving DecidableEq, Repr

/-- `Vertex::from(transaction, hash)`: fresh vertex, flags cleared. -/
def Vertex.fromTx (transaction : Transaction) (hash : Hash) : Vertex :=
  { transaction := transaction, hash := hash, solid := false, milestone := false }

/-! ## Association-list maps with `DashMap` semantics -/

/-- `DashMap::get`: first binding of the key, if any. -/
def mapGet {β : Type} (m : List (Hash × β)) (k : Hash) : Option β :=
  match m with
  | [] => none
  | (k', v) :: rest => if k' = k then some v else mapGet rest k

/-- `DashMap::contains_key`. -/
def mapContains {β : Type} (m : List (Hash × β)) (k : Hash) : Bool :=
  (mapGet m k).isSome

/-- `DashMap::insert`: replaces the value in place when the key is present
(returning the previous value), appends the binding otherwise. -/
def mapInsert {β : Type} (m : List (Hash × β)) (k : Hash) (v : β) :
    Option β × List (Hash × β) :=
  match m with
  | [] => (none, [(k, v)])
  | (k', v') :: rest =>
    if k' = k then (some v', (k', v) :: rest)
    else
      let (old, rest') := mapInsert rest k v
      (old, (k', v') :: rest')

/-- The `approvers.entry(k)` match in `Tangle::insert_transaction`:
occupied entry pushes `h` onto the existing vector, vacant entry inserts
the singleton `vec![h]`. -/
def approversAdd (m : List (Hash × List Hash)) (k : Hash) (h : Hash) :
    List (Hash × List Hash) :=
  match m with
  | [] => [(k, [h])]
  | (k', l) :: rest =>
    if k' = k then (k', l ++ [h]) :: rest
    else (k', l) :: approversAdd rest k h

/-! ## The Tangle state (`bee-tangle/src/tangle.rs`) -/

/-- The `Tangle` struct: vertices, approvers, milestones, solid entry
points, the three atomic `u32` indices, and (as the observable trace of
`solidifier_send`) the list of messages sent on the solidifier channel. -/
structure Tangle where
  vertices : List (Hash × Vertex)
  approvers : List (Hash × List Hash)
  milestones : List (Nat × Hash)
  solidEntryPoints : List Hash
  solidifierSent : List (Option Hash)
  solidMilestoneIndex : Nat
  snapshotMilestoneIndex : Nat
  lastMilestoneIndex : Nat
deriving DecidableEq, Repr

/-- `Tangle::new` with an empty solidifier trace. -/
def Tangle.empty : Tangle :=
  { vertices := [], approvers := [], milestones := [], solidEntryPoints := []
    solidifierSent := [], solidMilestoneIndex := 0
    snapshotMilestoneIndex := 0, lastMilestoneIndex := 0 }

/-- `Tangle::insert_transaction(transaction, hash)`:
appends `hash` to `approvers[trunk]`, and to `approvers[branch]` when
`trunk ≠ branch`; builds a fresh vertex and inserts it at `hash` into
`vertices` (`DashMap::insert`, which replaces); when no previous vertex
was present, sends `Some hash` on the solidifier channel and returns the
shared handle to the transaction, otherwise returns `none`. -/
def Tangle.insert_transaction (t : Tangle) (transaction : Transaction) (hash : Hash) :
    Option Transaction × Tangle :=
  let approvers1 := approversAdd t.approvers transaction.trunk hash
  let approvers2 :=
    if transaction.trunk ≠ transaction.branch then
      approversAdd approvers1 transaction.branch hash
    else approvers1
  let vertex := Vertex.fromTx transaction hash
  match mapInsert t.vertices hash vertex with
  | (none, vertices') =>
    (some transaction,
      { t with vertices := vertices', approvers := approvers2
               solidifierSent := t.solidifierSent ++ [some hash] })
  | (some _, vertices') =>
    (none, { t with vertices := vertices', approvers := approvers2 })

/-- `Tangle::get_transaction`. -/
def Tangle.get_transaction (t : Tangle) (hash : Hash) : Option Transaction :=
  (mapGet t.vertices hash).map Vertex.transaction

/-- `Tangle::contains_transaction`. -/
def Tangle.contains_transaction (t : Tangle) (hash : Hash) : Bool :=
  mapContains t.vertices hash

/-- `Tangle::is_solid_entry_point`. -/
def Tangle.is_solid_entry_point (t : Tangle) (hash : Hash) : Bool :=
  t.solidEntryPoints.contains hash

/-- `Tangle::add_solid_entry_point`. -/
def Tangle.add_solid_entry_point (t : Tangle) (hash : Hash) : Tangle :=
  { t with solidEntryPoints :=
      if t.solidEntryPoints.contains hash then t.solidEntryPoints
      else t.solidEntryPoints ++ [hash] }

/-- `Tangle::size`: number of stored vertices. -/
def Tangle.size (t : Tangle) : Nat :=
  t.vertices.length

/-- Approver list of a hash, `[]` when the key is absent (the lists the
claims speak about with `h ∈ approvers[k]`). -/
def Tangle.approversOf (t : Tangle) (k : Hash) : List Hash :=
  (mapGet t.approvers k).getD []

/-- Loop of `Tangle::walk_approvers_post_order_dfs`: the stack is a list
with its head as the top (`Vec::last`/`push`/`pop`). At the top hash: if
the vertex exists and both its trunk and branch are analyzed, emit the
hash (the `map` callback), mark it analyzed and pop; else push the
unanalyzed trunk (preferred) or branch; a missing vertex calls
`on_missing` unless it is a solid entry point, is marked analyzed and
popped. The `should_follow` parameter of the source is ignored by its
body (`TODO add follow`). The Rust `while` loop needs no fuel, but the
embedding takes one to guarantee termination; the accumulated `emitted`
and `missing` lists record the `map` and `on_missing` calls in order. -/
def Tangle.walkPostOrderAux (t : Tangle) :
    Nat → List Hash → List Hash → List Hash → List Hash → List Hash × List Hash
  | 0, _, _, emitted, missing => (emitted, missing)
  | fuel+1, stack, analyzed, emitted, missing =>
    match stack with
    | [] => (emitted, missing)
    | hash :: rest =>
      match mapGet t.vertices hash with
      | some vertex =>
        if analyzed.contains vertex.transaction.trunk &&
           analyzed.contains vertex.transaction.branch then
          t.walkPostOrderAux fuel rest (hash :: analyzed) (emitted ++ [hash]) missing
        else if !(analyzed.contains vertex.transaction.trunk) then
          t.walkPostOrderAux fuel (vertex.transaction.trunk :: hash :: rest)
            analyzed emitted missing
        else
          t.walkPostOrderAux fuel (vertex.transaction.branch :: hash :: rest)
            analyzed emitted missing
      | none =>
        if t.is_solid_entry_point hash then
          t.walkPostOrderAux fuel rest (hash :: analyzed) emitted missing
        else
          t.walkPostOrderAux fuel rest (hash :: analyzed) emitted (missing ++ [hash])

/-- `Tangle::walk_approvers_post_order_dfs(root, map, should_follow,
on_missing)`, returning the emitted hashes and the missing hashes. -/
def Tangle.walk_approvers_post_order_dfs (t : Tangle) (fuel : Nat) (root : Hash) :
    List Hash × List Hash :=
  t.walkPostOrderAux fuel [root] [] [] []

/-! ## Priority wait-queue and transaction requester
(`bee-protocol/src/util/wait_priority_queue.rs`,
`bee-protocol/src/worker/requester/transaction.rs`) -/

/-- `TransactionRequesterWorkerEntry(Hash, MilestoneIndex)`. -/
structure TransactionRequesterWorkerEntry where
  hash : Hash
  index : Nat
deriving DecidableEq, Repr

/-- `Ord for TransactionRequesterWorkerEntry`: `self.1.cmp(&other.1)` —
the milestone index only, the hash is ignored. -/
def TransactionRequesterWorkerEntry.cmp
    (a b : TransactionRequesterWorkerEntry) : Ordering :=
  compare a.index b.index

/-- `WaitPriorityQueue::insert`: pushes onto the `BinaryHeap` (whose
contents we model as the list of held entries). -/
def heapInsert (l : List TransactionRequesterWorkerEntry)
    (e : TransactionRequesterWorkerEntry) : List TransactionRequesterWorkerEntry :=
  e :: l

/-- `BinaryHeap::pop` on the modelled contents: removes and returns a
maximum-priority element under the entry ordering (`cmp`, i.e. by
milestone index; among ties the first is taken). -/
def heapPopMax : List TransactionRequesterWorkerEntry →
    Option (TransactionRequesterWorkerEntry × List TransactionRequesterWorkerEntry)
  | [] => none
  | x :: xs =>
    match heapPopMax xs with
    | none => some (x, [])
    | some (y, ys) =>
      if x.cmp y = .lt then some (y, x :: ys) else some (x, xs)

/-- Successive `pop()`s of the wait-queue until exhaustion (bounded by the
given fuel; `heapDrainAll` uses the queue length). -/
def heapDrain : Nat → List TransactionRequesterWorkerEntry →
    List TransactionRequesterWorkerEntry
  | 0, _ => []
  | fuel+1, l =>
    match heapPopMax l with
    | none => []
    | some (e, rest) => e :: heapDrain fuel rest

/-- All entries of the queue in pop order. -/
def heapDrainAll (l : List TransactionRequesterWorkerEntry) :
    List TransactionRequesterWorkerEntry :=
  heapDrain l.length l

/-- Observable requester state: the process-wide `requested` map
(`DashMap<Hash, MilestoneIndex>`) and the trace of `TransactionRequest`
sends as `(epid, hash)` pairs. -/
structure RequesterState where
  requested : List (Hash × Nat)
  sentRequests : List (Nat × Hash)
deriving DecidableEq, Repr

/-- `TransactionRequesterWorker::process_request(hash, index)`: returns
immediately when no peer is handshaked; otherwise records
`(hash → index)` in `requested`, then sends a `TransactionRequest` to the
peer drawn by the RNG (`gen_range(0, len)` guarantees the drawn position
`r` is in range; peers are modelled as a list of endpoint ids and the draw
as the parameter `r`). -/
def process_request (peers : List Nat) (r : Nat) (st : RequesterState)
    (hash : Hash) (index : Nat) : RequesterState :=
  if peers.isEmpty then st
  else
    let st1 := { st with requested := (mapInsert st.requested hash index).2 }
    match peers.get? r with
    | some epid => { st1 with sentRequests := st1.sentRequests ++ [(epid, hash)] }
    | none => st1

/-- The requester run-loop body for a popped entry `(hash, index)`:
`process_request` is invoked only when the hash is neither a solid entry
point nor already stored in the tangle. -/
def processEntry (t : Tangle) (peers : List Nat) (r : Nat) (st : RequesterState)
    (hash : Hash) (index : Nat) : RequesterState :=
  if !(t.is_solid_entry_point hash) && !(t.contains_transaction hash) then
    process_request peers r st hash index
  else st

/-! ## Milestone validator (`bee-protocol/src/worker/milestone_validator.rs`) -/

/-- A built milestone (index and hash), the result of
`MilestoneBuilder::build`. -/
structure Milestone where
  hash : Hash
  index : Nat
deriving DecidableEq, Repr

/-- `MilestoneValidatorWorkerError`; the `MilestoneBuilderError` payload of
`InvalidMilestone` is abstracted to a `Nat` code (its structure lives
outside the embedded core). -/
inductive MilestoneValidatorWorkerError where
  | UnknownTail
  | NotATail
  | IncompleteBundle
  | InvalidMilestone (e : Nat)
deriving DecidableEq, Repr

/-- Modelled from the spec: `Transaction::is_tail` (bee-bundle transaction
module, not under `src/`): a transaction is a tail iff its `index` field
is 0 (§3). -/
def Transaction.is_tail (tx : Transaction) : Bool := tx.index == 0

/-- The `for _ in 0..security_level` loop of `validate_milestone`: follow
the trunk chain for the given number of steps, fetching each transaction
from the tangle; `none` when any of them is missing. -/
def collectTrunkChain (t : Tangle) :
    Nat → Transaction → Option (List Transaction)
  | 0, _ => some []
  | n+1, transaction =>
    match t.get_transaction transaction.trunk with
    | none => none
    | some tx' => (collectTrunkChain t n tx').map (tx' :: ·)

/-- `MilestoneValidatorWorker::validate_milestone(tail_hash)`: absent tail
→ `UnknownTail`; non-tail → `NotATail`; a missing transaction on the
`security_level`-step trunk chain → `IncompleteBundle`; otherwise the
builder's `validate().build()` outcome, modelled by the abstract
`validateBuild` argument, whose error surfaces as `InvalidMilestone`. -/
def validate_milestone (t : Tangle) (securityLevel : Nat)
    (validateBuild : List Transaction → Except Nat Milestone) (tailHash : Hash) :
    Except MilestoneValidatorWorkerError Milestone :=
  match t.get_transaction tailHash with
  | none => .error .UnknownTail
  | some transaction =>
    if !transaction.is_tail then .error .NotATail
    else
      match collectTrunkChain t securityLevel transaction with
      | none => .error .IncompleteBundle
      | some chain =>
        match validateBuild (transaction :: chain) with
        | .error e => .error (.InvalidMilestone e)
        | .ok m => .ok m

/-! ## Message codec (`bee-protocol/src/message/message.rs`,
`bee-protocol/src/message/transaction_broadcast.rs`) -/

/-- Modelled from the spec: the `MessageError` enum used by the codec is
not under `src/` (the `errors.rs` present there is the older
`ProtocolMessageError`); these are the variants the codec constructs. -/
inductive MessageError where
  | InvalidPayloadLength (length : Nat)
  | InvalidAdvertisedLength (advertised actual : Nat)
  | InvalidAdvertisedLengthBytes (b0 b1 : Nat)
deriving DecidableEq, Repr

/-- `HEADER_SIZE`: message type byte plus two length bytes. -/
def HEADER_SIZE : Nat := 3

/-- A message kind: the constants and per-kind operations of the Rust
`Message` trait (`ID`, `size_range()` as a half-open interval,
`size`, `to_bytes`, `from_bytes`); bytes are `Nat`s below 256. -/
structure MessageKind (α : Type) where
  id : Nat
  sizeRangeLo : Nat
  sizeRangeHi : Nat
  size : α → Nat
  to_bytes : α → List Nat
  from_bytes : List Nat → Except MessageError α

/-- `Message::from_full_bytes(header, payload)` (trait default): reads the
big-endian `u16` advertised length from header bytes 1..3, errors with
`InvalidAdvertisedLength(advertised, actual)` when it differs from the
actual payload length, then delegates to the kind's `from_bytes`. (The
`InvalidAdvertisedLengthBytes` branch of the source cannot fire once the
header has exactly `HEADER_SIZE = 3` bytes.) -/
def MessageKind.from_full_bytes {α : Type} (K : MessageKind α)
    (header : List Nat) (payload : List Nat) : Except MessageError α :=
  let advertised := header.getD 1 0 * 256 + header.getD 2 0
  if advertised ≠ payload.length then
    .error (.InvalidAdvertisedLength advertised payload.length)
  else K.from_bytes payload

/-- `Message::into_full_bytes` (trait default): allocates
`HEADER_SIZE + size` bytes, writes the kind ID, then the big-endian bytes
of `size as u16` (that is, `size % 2^16`), then the body via `to_bytes`. -/
def MessageKind.into_full_bytes {α : Type} (K : MessageKind α) (m : α) : List Nat :=
  [K.id, (K.size m % 65536) / 256, (K.size m % 65536) % 256] ++ K.to_bytes m

/-- `TransactionBroadcast`: a variable-length compressed transaction
blob. -/
structure TransactionBroadcast where
  transaction : List Nat
deriving DecidableEq, Repr

/-- `impl Message for TransactionBroadcast`: `ID = 0x04`,
`size_range() = 292..1605`, `from_bytes` rejects out-of-range payload
lengths with `InvalidPayloadLength`, `size` and `to_bytes` expose the
blob. -/
def TransactionBroadcast.kind : MessageKind TransactionBroadcast :=
  { id := 4
    sizeRangeLo := 292
    sizeRangeHi := 1605
    size := fun m => m.transaction.length
    to_bytes := fun m => m.transaction
    from_bytes := fun bytes =>
      if ¬ (292 ≤ bytes.length ∧ bytes.length < 1605) then
        .error (.InvalidPayloadLength bytes.length)
      else .ok { transaction := bytes } }

/-! ## Bundle ledger diff (`bee-bundle/src/bundle/bundle.rs`) -/

/-- The `*diff.entry(address).or_insert(0) += value` update of
`ledger_diff`: adds `v` to the entry of `a`, creating it at 0 first when
absent. -/
def diffAdd (m : List (Nat × Int)) (a : Nat) (v : Int) : List (Nat × Int) :=
  match m with
  | [] => [(a, v)]
  | (a', x) :: rest =>
    if a' = a then (a', x + v) :: rest else (a', x) :: diffAdd rest a v

/-- The body of the `for transaction in self` loop of `Bundle::ledger_diff`:
only nonzero values touch the map. -/
def ledgerStep (diff : List (Nat × Int)) (tx : Transaction) : List (Nat × Int) :=
  if tx.value ≠ 0 then diffAdd diff tx.address tx.value else diff

/-- `Bundle::ledger_diff`: per-address summation of the nonzero values
across the bundle's transaction sequence (a bundle is a non-empty sequence
of transactions; `ledger_diff` never uses the non-emptiness). -/
def ledger_diff (b : List Transaction) : List (Nat × Int) :=
  b.foldl ledgerStep []

/-! ## Concrete fixtures -/

/-- A sample transaction with trunk 1 and branch 2. -/
def sampleTx : Transaction :=
  { address := 0, value := 0, bundle := 0, trunk := 1, branch := 2, tag := 0
    index := 0, lastIndex := 0, timestamp := 0, nonce := 0, signatureFragment := 0 }

/-- The tangle after inserting `sampleTx` at hash 5 into the empty tangle. -/
def sampleT1 : Tangle := (Tangle.empty.insert_transaction sampleTx 5).2

/-- `create_random_attached_tx(branch, trunk)` of the test fixture: a
transaction attached to the given branch and trunk (the remaining fields
are irrelevant to the walk). -/
def mkAttached (branch trunk : Hash) : Transaction :=
  { address := 0, value := 0, bundle := 0, trunk := trunk, branch := branch, tag := 0
    index := 0, lastIndex := 0, timestamp := 0, nonce := 0, signatureFragment := 0 }

/-- The RFC-0005 white-flag fixture of the `walk_approvers_post_order_dfs`
test: the 26 attachments in insertion order `a..z`, each as
`(hash, branch, trunk)`, exactly the `create_random_attached_tx` calls of
the test (first argument branch, second trunk). Hashes:
`sep1..sep6 = 1..6` and `a..z = 10..35` (`a=10, b=11, c=12, d=13, e=14,
f=15, g=16, h=17, i=18, j=19, k=20, l=21, m=22, n=23, o=24, p=25, q=26,
r=27, s=28, t=29, u=30, v=31, w=32, x=33, y=34, z=35`). -/
def rfcFixtureEntries : List (Hash × Hash × Hash) :=
  [ (10, 1, 2), (11, 3, 4), (12, 5, 6),
    (13, 11, 10), (14, 11, 10), (15, 12, 11),
    (16, 14, 13), (17, 15, 14), (18, 12, 15),
    (19, 17, 16), (20, 18, 17), (21, 19, 16),
    (22, 17, 19), (23, 20, 17), (24, 18, 20),
    (25, 18, 20), (26, 22, 21), (27, 22, 21),
    (28, 24, 23), (29, 25, 24), (30, 27, 26),
    (31, 28, 27), (32, 29, 28), (33, 30, 26),
    (34, 31, 30), (35, 28, 31) ]

/-- The fixture tangle: six solid entry points, then the 26 insertions. -/
def rfcTangle : Tangle :=
  let t0 := [1, 2, 3, 4, 5, 6].foldl Tangle.add_solid_entry_point Tangle.empty
  rfcFixtureEntries.foldl
    (fun t e => (t.insert_transaction (mkAttached e.2.1 e.2.2) e.1).2) t0

/-- A minimum-size `TransactionBroadcast` (292 zero bytes). -/
def smallBroadcast : TransactionBroadcast := { transaction := List.replicate 292 0 }

/-- An oversized `TransactionBroadcast` whose body does not fit in the
16-bit header length field (65536 zero bytes; `TransactionBroadcast::new`
accepts a blob of any length). -/
def bigBroadcast : TransactionBroadcast := { transaction := List.replicate 65536 0 }

/-- A two-transaction bundle at a single address 9 with values `+5` and
`-5`: the net change of address 9 over the bundle is zero. -/
def zeroNetBundle : List Transaction :=
  [ { address := 9, value := 5, bundle := 0, trunk := 0, branch := 0, tag := 0
      index := 0, lastIndex := 1, timestamp := 0, nonce := 0, signatureFragment := 0 },
    { address := 9, value := -5, bundle := 0, trunk := 0, branch := 0, tag := 0
      index := 1, lastIndex := 1, timestamp := 0, nonce := 0, signatureFragment := 0 } ]

/-! ### Map lemmas -/

theorem mapGet_mapInsert_self {β : Type} (m : List (Hash × β)) (k : Hash) (v : β) :
    mapGet (mapInsert m k v).2 k = some v := by
  induction m with
  | nil => simp [mapInsert, mapGet]
  | cons p rest ih =>
    obtain ⟨k', v'⟩ := p
    by_cases h : k' = k
    · simp [mapInsert, mapGet, h]
    · simp [mapInsert, mapGet, h, ih]

theorem mapInsert_fst {β : Type} (m : List (Hash × β)) (k : Hash) (v : β) :
    (mapInsert m k v).1 = mapGet m k := by
  induction m with
  | nil => simp [mapInsert, mapGet]
  | cons p rest ih =>
    obtain ⟨k', v'⟩ := p
    by_cases h : k' = k
    · simp [mapInsert, mapGet, h]
    · simp [mapInsert, mapGet, h, ih]

theorem mapGet_mapInsert_ne {β : Type} (m : List (Hash × β)) (k k' : Hash) (v : β)
    (h : k' ≠ k) : mapGet (mapInsert m k v).2 k' = mapGet m k' := by
  have hk : ¬ k = k' := fun hh => h hh.symm
  induction m with
  | nil => simp [mapInsert, mapGet, hk]
  | cons p rest ih =>
    obtain ⟨k₀, v₀⟩ := p
    by_cases h0 : k₀ = k
    · subst h0
      simp [mapInsert, mapGet, hk]
    · by_cases h1 : k₀ = k'
      · simp [mapInsert, mapGet, h0, h1, h]
      · simp [mapInsert, mapGet, h0, h1, ih]

theorem mapInsert_length_of_present {β : Type} (m : List (Hash × β)) (k : Hash)
    (v : β) (h : (mapGet m k).isSome) :
    (mapInsert m k v).2.length = m.length := by
  induction m with
  | nil => simp [mapGet] at h
  | cons p rest ih =>
    obtain ⟨k', v'⟩ := p
    by_cases h0 : k' = k
    · simp [mapInsert, h0]
    · simp [mapGet, h0] at h
      simp [mapInsert, h0, ih h]

theorem mapInsert_length_of_absent {β : Type} (m : List (Hash × β)) (k : Hash)
    (v : β) (h : mapGet m k = none) :
    (mapInsert m k v).2.length = m.length + 1 := by
  induction m with
  | nil => simp [mapInsert]
  | cons p rest ih =>
    obtain ⟨k', v'⟩ := p
    by_cases h0 : k' = k
    · simp [mapGet, h0] at h
    · simp [mapGet, h0] at h
      simp [mapInsert, h0, ih h]

theorem approversAdd_get_self (m : List (Hash × List Hash)) (k h : Hash) :
    mapGet (approversAdd m k h) k = some ((mapGet m k).getD [] ++ [h]) := by
  induction m with
  | nil => simp [approversAdd, mapGet]
  | cons p rest ih =>
    obtain ⟨k', l⟩ := p
    by_cases h0 : k' = k
    · simp [approversAdd, mapGet, h0]
    · simp [approversAdd, mapGet, h0, ih]

theorem approversAdd_get_ne (m : List (Hash × List Hash)) (k k' h : Hash)
    (hne : k' ≠ k) : mapGet (approversAdd m k h) k' = mapGet m k' := by
  have hk : ¬ k = k' := fun hh => hne hh.symm
  induction m with
  | nil => simp [approversAdd, mapGet, hk]
  | cons p rest ih =>
    obtain ⟨k₀, l⟩ := p
    by_cases h0 : k₀ = k
    · subst h0
      simp [approversAdd, mapGet, hk]
    · by_cases h1 : k₀ = k'
      · simp [approversAdd, mapGet, h0, h1, hne]
      · simp [approversAdd, mapGet, h0, h1, ih]

/-! ### Structure of `insert_transaction` -/

theorem insert_transaction_vertices (t : Tangle) (tx : Transaction) (h : Hash) :
    (t.insert_transaction tx h).2.vertices =
      (mapInsert t.vertices h (Vertex.fromTx tx h)).2 := by
  unfold Tangle.insert_transaction
  rcases hm : mapInsert t.vertices h (Vertex.fromTx tx h) with ⟨old, verts⟩
  cases old <;> simp [hm]

theorem insert_transaction_approvers (t : Tangle) (tx : Transaction) (h : Hash) :
    (t.insert_transaction tx h).2.approvers =
      if tx.trunk ≠ tx.branch then
        approversAdd (approversAdd t.approvers tx.trunk h) tx.branch h
      else approversAdd t.approvers tx.trunk h := by
  unfold Tangle.insert_transaction
  rcases hm : mapInsert t.vertices h (Vertex.fromTx tx h) with ⟨old, verts⟩
  cases old <;> simp [hm]

theorem insert_transaction_fst (t : Tangle) (tx : Transaction) (h : Hash) :
    (t.insert_transaction tx h).1 =
      if mapGet t.vertices h = none then some tx else none := by
  unfold Tangle.insert_transaction
  rcases hm : mapInsert t.vertices h (Vertex.fromTx tx h) with ⟨old, verts⟩
  have hold : old = mapGet t.vertices h := by
    have := mapInsert_fst t.vertices h (Vertex.fromTx tx h)
    rw [hm] at this
    exact this
  cases old with
  | none => simp [hm, ← hold]
  | some v => simp [hm, ← hold]

theorem insert_transaction_sent (t : Tangle) (tx : Transaction) (h : Hash) :
    (t.insert_transaction tx h).2.solidifierSent =
      if mapGet t.vertices h = none then t.solidifierSent ++ [some h]
      else t.solidifierSent := by
  unfold Tangle.insert_transaction
  rcases hm : mapInsert t.vertices h (Vertex.fromTx tx h) with ⟨old, verts⟩
  have hold : old = mapGet t.vertices h := by
    have := mapInsert_fst t.vertices h (Vertex.fromTx tx h)
    rw [hm] at this
    exact this
  cases old with
  | none => simp [hm, ← hold]
  | some v => simp [hm, ← hold]

theorem insert_transaction_frame (t : Tangle) (tx : Transaction) (h : Hash) :
    (t.insert_transaction tx h).2.milestones = t.milestones ∧
    (t.insert_transaction tx h).2.solidEntryPoints = t.solidEntryPoints ∧
    (t.insert_transaction tx h).2.solidMilestoneIndex = t.solidMilestoneIndex ∧
    (t.insert_transaction tx h).2.snapshotMilestoneIndex = t.snapshotMilestoneIndex ∧
    (t.insert_transaction tx h).2.lastMilestoneIndex = t.lastMilestoneIndex := by
  unfold Tangle.insert_transaction
  rcases hm : mapInsert t.vertices h (Vertex.fromTx tx h) with ⟨old, verts⟩
  cases old <;> simp [hm]

theorem approversOf_insert_trunk (t : Tangle) (tx : Transaction) (h : Hash) :
    (t.insert_transaction tx h).2.approversOf tx.trunk =
      t.approversOf tx.trunk ++ [h] := by
  unfold Tangle.approversOf
  rw [insert_transaction_approvers]
  by_cases hne : tx.trunk = tx.branch
  · simp [hne, approversAdd_get_self]
  · simp only [ne_eq, hne, not_false_eq_true, if_true]
    rw [approversAdd_get_ne _ _ _ _ hne, approversAdd_get_self]
    simp

theorem approversOf_insert_branch (t : Tangle) (tx : Transaction) (h : Hash)
    (hne : tx.trunk ≠ tx.branch) :
    (t.insert_transaction tx h).2.approversOf tx.branch =
      t.approversOf tx.branch ++ [h] := by
  unfold Tangle.approversOf
  rw [insert_transaction_approvers]
  simp only [ne_eq, hne, not_false_eq_true, if_true]
  rw [approversAdd_get_self]
  rw [approversAdd_get_ne _ _ _ _ (fun hh => hne hh.symm)]
  simp

theorem contains_insert_self (t : Tangle) (tx : Transaction) (h : Hash) :
    (t.insert_transaction tx h).2.contains_transaction h = true := by
  unfold Tangle.contains_transaction mapContains
  rw [insert_transaction_vertices, mapGet_mapInsert_self]
  rfl

/-! ## Claims -/

/-- C1: for every transaction `tx` and hash `h` such that inserting
`(tx, h)` succeeds (`h` was not present), afterwards
`contains_transaction(h)` holds, `h ∈ approvers[tx.trunk]`, and when
`tx.trunk ≠ tx.branch` also `h ∈ approvers[tx.branch]`. -/
theorem insert_transaction_establishes_invariants (t : Tangle) (tx : Transaction)
    (h : Hash) (_hfresh : t.contains_transaction h = false) :
    (t.insert_transaction tx h).2.contains_transaction h = true ∧
    h ∈ (t.insert_transaction tx h).2.approversOf tx.trunk ∧
    (tx.trunk ≠ tx.branch →
      h ∈ (t.insert_transaction tx h).2.approversOf tx.branch) := by
  refine ⟨contains_insert_self t tx h, ?_, ?_⟩
  · rw [approversOf_insert_trunk]
    simp
  · intro hne
    rw [approversOf_insert_branch t tx h hne]
    simp

/-- Witness for C1 at a concrete input: fresh hash 5 into the empty tangle. -/
theorem insert_transaction_establishes_invariants_witness :
    Tangle.empty.contains_transaction 5 = false ∧
    ((Tangle.empty.insert_transaction sampleTx 5).2.contains_transaction 5 = true ∧
     5 ∈ (Tangle.empty.insert_transaction sampleTx 5).2.approversOf sampleTx.trunk ∧
     (sampleTx.trunk ≠ sampleTx.branch →
       5 ∈ (Tangle.empty.insert_transaction sampleTx 5).2.approversOf sampleTx.branch)) :=
  ⟨by decide, insert_transaction_establishes_invariants Tangle.empty sampleTx 5 (by decide)⟩

/-- C2: inserting a fresh `(tx, h)` returns the handle and sends `h` on the
solidifier channel; a second insertion at the same hash returns `none`;
across both calls `size()` grows by exactly one. -/
theorem insert_transaction_twice (t : Tangle) (tx tx₂ : Transaction) (h : Hash)
    (hfresh : t.contains_transaction h = false) :
    (t.insert_transaction tx h).1 = some tx ∧
    (t.insert_transaction tx h).2.solidifierSent = t.solidifierSent ++ [some h] ∧
    ((t.insert_transaction tx h).2.insert_transaction tx₂ h).1 = none ∧
    ((t.insert_transaction tx h).2.insert_transaction tx₂ h).2.size = t.size + 1 := by
  have hnone : mapGet t.vertices h = none := by
    unfold Tangle.contains_transaction mapContains at hfresh
    cases hg : mapGet t.vertices h with
    | none => rfl
    | some v => rw [hg] at hfresh; simp at hfresh
  have hsome : mapGet (t.insert_transaction tx h).2.vertices h =
      some (Vertex.fromTx tx h) := by
    rw [insert_transaction_vertices, mapGet_mapInsert_self]
  refine ⟨?_, ?_, ?_, ?_⟩
  · rw [insert_transaction_fst, hnone]
    rfl
  · rw [insert_transaction_sent, hnone]
    rfl
  · rw [insert_transaction_fst, hsome]
    rfl
  · show ((t.insert_transaction tx h).2.insert_transaction tx₂ h).2.vertices.length =
      t.vertices.length + 1
    rw [insert_transaction_vertices, mapInsert_length_of_present _ _ _ (by rw [hsome]; rfl)]
    rw [insert_transaction_vertices, mapInsert_length_of_absent _ _ _ hnone]

/-- Witness for C2 at a concrete input: fresh hash 5 into the empty tangle,
inserted twice. -/
theorem insert_transaction_twice_witness :
    Tangle.empty.contains_transaction 5 = false ∧
    ((Tangle.empty.insert_transaction sampleTx 5).1 = some sampleTx ∧
     (Tangle.empty.insert_transaction sampleTx 5).2.solidifierSent =
       Tangle.empty.solidifierSent ++ [some 5] ∧
     ((Tangle.empty.insert_transaction sampleTx 5).2.insert_transaction sampleTx 5).1 = none ∧
     ((Tangle.empty.insert_transaction sampleTx 5).2.insert_transaction sampleTx 5).2.size =
       Tangle.empty.size + 1) :=
  ⟨by decide, insert_transaction_twice Tangle.empty sampleTx sampleTx 5 (by decide)⟩

/-- C3 counterexample: re-inserting an already present hash is NOT a no-op.
After inserting `sampleTx` at hash 5 twice, the tangle state differs from
the state after one insertion: the approver list of trunk 1 holds the
duplicate `[5, 5]`. -/
theorem insert_transaction_reinsert_not_noop :
    (sampleT1.insert_transaction sampleTx 5).2 ≠ sampleT1 ∧
    (sampleT1.insert_transaction sampleTx 5).2.approversOf 1 = [5, 5] ∧
    sampleT1.approversOf 1 = [5] := by
  refine ⟨?_, by decide, by decide⟩
  intro hcontra
  have : (sampleT1.insert_transaction sampleTx 5).2.approversOf 1 =
      sampleT1.approversOf 1 := by rw [hcontra]
  rw [show (sampleT1.insert_transaction sampleTx 5).2.approversOf 1 = [5, 5] from by decide,
      show sampleT1.approversOf 1 = [5] from by decide] at this
  simp at this

/-- C3 amended: re-inserting at an already present hash `h` returns `none`
and leaves the vertex key set, the size, the milestones, the solid entry
points, the solidifier channel and the three indices unchanged, but appends
`h` once more to `approvers[tx.trunk]` (and to `approvers[tx.branch]` when
trunk and branch differ) and replaces the stored vertex at `h` with a fresh
vertex for `tx` (flags cleared). -/
theorem insert_transaction_reinsert (t : Tangle) (tx : Transaction) (h : Hash)
    (hpres : t.contains_transaction h = true) :
    (t.insert_transaction tx h).1 = none ∧
    (t.insert_transaction tx h).2.size = t.size ∧
    (∀ k, (t.insert_transaction tx h).2.contains_transaction k =
      t.contains_transaction k) ∧
    mapGet (t.insert_transaction tx h).2.vertices h = some (Vertex.fromTx tx h) ∧
    (t.insert_transaction tx h).2.approversOf tx.trunk =
      t.approversOf tx.trunk ++ [h] ∧
    (tx.trunk ≠ tx.branch →
      (t.insert_transaction tx h).2.approversOf tx.branch =
        t.approversOf tx.branch ++ [h]) ∧
    (t.insert_transaction tx h).2.milestones = t.milestones ∧
    (t.insert_transaction tx h).2.solidEntryPoints = t.solidEntryPoints ∧
    (t.insert_transaction tx h).2.solidifierSent = t.solidifierSent ∧
    (t.insert_transaction tx h).2.solidMilestoneIndex = t.solidMilestoneIndex ∧
    (t.insert_transaction tx h).2.snapshotMilestoneIndex = t.snapshotMilestoneIndex ∧
    (t.insert_transaction tx h).2.lastMilestoneIndex = t.lastMilestoneIndex := by
  have hsome : (mapGet t.vertices h).isSome := by
    unfold Tangle.contains_transaction mapContains at hpres
    exact hpres
  have hnn : ¬ mapGet t.vertices h = none := by
    intro hc
    rw [hc] at hsome
    simp at hsome
  obtain ⟨hms, hsep, hsolid, hsnap, hlast⟩ := insert_transaction_frame t tx h
  refine ⟨?_, ?_, ?_, ?_, approversOf_insert_trunk t tx h,
    fun hne => approversOf_insert_branch t tx h hne, hms, hsep, ?_, hsolid, hsnap, hlast⟩
  · rw [insert_transaction_fst]
    simp [hnn]
  · show (t.insert_transaction tx h).2.vertices.length = t.vertices.length
    rw [insert_transaction_vertices, mapInsert_length_of_present _ _ _ hsome]
  · intro k
    by_cases hk : k = h
    · subst hk
      rw [contains_insert_self, hpres]
    · unfold Tangle.contains_transaction mapContains
      rw [insert_transaction_vertices,
        mapGet_mapInsert_ne _ _ _ _ hk]
  · rw [insert_transaction_vertices, mapGet_mapInsert_self]
  · rw [insert_transaction_sent]
    simp [hnn]

/-- C4: on the RFC-0005 fixture, the post-order DFS walk started at `v`
(hash 31) with an always-true follow predicate emits exactly the 18 hashes
`[a, b, d, e, g, c, f, h, j, l, m, r, i, k, n, o, s, v]`
`= [10, 11, 13, 14, 16, 12, 15, 17, 19, 21, 22, 27, 18, 20, 23, 24, 28, 31]`
in that order (and reports no missing hash). -/
theorem walk_post_order_dfs_rfc_fixture :
    (rfcTangle.walk_approvers_post_order_dfs 100 31).1 =
      [10, 11, 13, 14, 16, 12, 15, 17, 19, 21, 22, 27, 18, 20, 23, 24, 28, 31] := by
  decide

/-- Witness for the amended C3 at a concrete input: hash 5 already present
in `sampleT1`. -/
theorem insert_transaction_reinsert_witness :
    sampleT1.contains_transaction 5 = true ∧
    ((sampleT1.insert_transaction sampleTx 5).1 = none ∧
     (sampleT1.insert_transaction sampleTx 5).2.size = sampleT1.size ∧
     (∀ k, (sampleT1.insert_transaction sampleTx 5).2.contains_transaction k =
       sampleT1.contains_transaction k) ∧
     mapGet (sampleT1.insert_transaction sampleTx 5).2.vertices 5 =
       some (Vertex.fromTx sampleTx 5) ∧
     (sampleT1.insert_transaction sampleTx 5).2.approversOf sampleTx.trunk =
       sampleT1.approversOf sampleTx.trunk ++ [5] ∧
     (sampleTx.trunk ≠ sampleTx.branch →
       (sampleT1.insert_transaction sampleTx 5).2.approversOf sampleTx.branch =
         sampleT1.approversOf sampleTx.branch ++ [5]) ∧
     (sampleT1.insert_transaction sampleTx 5).2.milestones = sampleT1.milestones ∧
     (sampleT1.insert_transaction sampleTx 5).2.solidEntryPoints =
       sampleT1.solidEntryPoints ∧
     (sampleT1.insert_transaction sampleTx 5).2.solidifierSent =
       sampleT1.solidifierSent ∧
     (sampleT1.insert_transaction sampleTx 5).2.solidMilestoneIndex =
       sampleT1.solidMilestoneIndex ∧
     (sampleT1.insert_transaction sampleTx 5).2.snapshotMilestoneIndex =
       sampleT1.snapshotMilestoneIndex ∧
     (sampleT1.insert_transaction sampleTx 5).2.lastMilestoneIndex =
       sampleT1.lastMilestoneIndex) :=
  ⟨by decide, insert_transaction_reinsert sampleT1 sampleTx 5 (by decide)⟩

/-! ### Wait-priority-queue lemmas -/

theorem entry_cmp_lt (x y : TransactionRequesterWorkerEntry) :
    x.cmp y = .lt ↔ x.index < y.index := by
  unfold TransactionRequesterWorkerEntry.cmp
  exact Nat.compare_eq_lt

theorem heapPopMax_eq_none (l : List TransactionRequesterWorkerEntry) :
    heapPopMax l = none ↔ l = [] := by
  cases l with
  | nil => simp [heapPopMax]
  | cons x xs =>
    simp only [heapPopMax]
    cases h : heapPopMax xs with
    | none => simp
    | some p =>
      obtain ⟨y, ys⟩ := p
      by_cases hlt : x.cmp y = Ordering.lt <;> simp [hlt]

theorem heapPopMax_perm (l : List TransactionRequesterWorkerEntry)
    (e : TransactionRequesterWorkerEntry)
    (rest : List TransactionRequesterWorkerEntry)
    (h : heapPopMax l = some (e, rest)) : (e :: rest).Perm l := by
  induction l generalizing e rest with
  | nil => simp [heapPopMax] at h
  | cons x xs ih =>
    simp only [heapPopMax] at h
    cases hx : heapPopMax xs with
    | none =>
      rw [hx] at h
      simp only [Option.some.injEq, Prod.mk.injEq] at h
      obtain ⟨rfl, rfl⟩ := h
      have hnil : xs = [] := (heapPopMax_eq_none xs).mp hx
      subst hnil
      exact List.Perm.refl _
    | some p =>
      obtain ⟨y, ys⟩ := p
      rw [hx] at h
      by_cases hlt : x.cmp y = Ordering.lt
      · simp only [hlt, if_true, Option.some.injEq, Prod.mk.injEq] at h
        obtain ⟨rfl, rfl⟩ := h
        exact (List.Perm.swap x y ys).trans ((ih y ys hx).cons x)
      · simp only [hlt, if_false, Option.some.injEq, Prod.mk.injEq] at h
        obtain ⟨rfl, rfl⟩ := h
        exact List.Perm.refl _

theorem heapPopMax_max (l : List TransactionRequesterWorkerEntry)
    (e : TransactionRequesterWorkerEntry)
    (rest : List TransactionRequesterWorkerEntry)
    (h : heapPopMax l = some (e, rest)) :
    ∀ x ∈ rest, x.index ≤ e.index := by
  induction l generalizing e rest with
  | nil => simp [heapPopMax] at h
  | cons x xs ih =>
    simp only [heapPopMax] at h
    cases hx : heapPopMax xs with
    | none =>
      rw [hx] at h
      simp only [Option.some.injEq, Prod.mk.injEq] at h
      obtain ⟨rfl, rfl⟩ := h
      intro z hz
      simp at hz
    | some p =>
      obtain ⟨y, ys⟩ := p
      rw [hx] at h
      by_cases hlt : x.cmp y = Ordering.lt
      · simp only [hlt, if_true, Option.some.injEq, Prod.mk.injEq] at h
        obtain ⟨rfl, rfl⟩ := h
        intro z hz
        rcases List.mem_cons.mp hz with hzx | hzys
        · subst hzx
          exact Nat.le_of_lt ((entry_cmp_lt z y).mp hlt)
        · exact ih y ys hx z hzys
      · simp only [hlt, if_false, Option.some.injEq, Prod.mk.injEq] at h
        obtain ⟨rfl, rfl⟩ := h
        have hyx : y.index ≤ x.index := by
          have := (entry_cmp_lt x y).not.mp hlt
          omega
        intro z hz
        have hperm : (y :: ys).Perm xs := heapPopMax_perm xs y ys hx
        have hz' : z ∈ y :: ys := hperm.mem_iff.mpr hz
        rcases List.mem_cons.mp hz' with hzy | hzys
        · subst hzy
          exact hyx
        · exact Nat.le_trans (ih y ys hx z hzys) hyx

theorem heapDrain_subset (fuel : Nat) (l : List TransactionRequesterWorkerEntry) :
    ∀ x ∈ heapDrain fuel l, x ∈ l := by
  induction fuel generalizing l with
  | zero => simp [heapDrain]
  | succ n ih =>
    intro x hx
    simp only [heapDrain] at hx
    cases hp : heapPopMax l with
    | none => rw [hp] at hx; simp at hx
    | some p =>
      obtain ⟨e, rest⟩ := p
      rw [hp] at hx
      have hperm := heapPopMax_perm l e rest hp
      rcases List.mem_cons.mp hx with hxe | hxr
      · subst hxe
        exact hperm.mem_iff.mp (List.mem_cons_self x rest)
      · exact hperm.mem_iff.mp (List.mem_cons_of_mem e (ih rest x hxr))

theorem heapDrain_perm (fuel : Nat) (l : List TransactionRequesterWorkerEntry)
    (hfuel : l.length ≤ fuel) : (heapDrain fuel l).Perm l := by
  induction fuel generalizing l with
  | zero =>
    have : l = [] := List.length_eq_zero.mp (Nat.le_zero.mp hfuel)
    subst this
    simp [heapDrain]
  | succ n ih =>
    simp only [heapDrain]
    cases hp : heapPopMax l with
    | none =>
      have : l = [] := (heapPopMax_eq_none l).mp hp
      subst this
      simp
    | some p =>
      obtain ⟨e, rest⟩ := p
      have hperm := heapPopMax_perm l e rest hp
      have hlen : rest.length + 1 = l.length := by
        have := hperm.length_eq
        simpa using this
      have hrest : rest.length ≤ n := by omega
      exact ((ih rest hrest).cons e).trans hperm

theorem heapDrain_sorted (fuel : Nat) (l : List TransactionRequesterWorkerEntry) :
    List.Sorted (fun a b : TransactionRequesterWorkerEntry => b.index ≤ a.index)
      (heapDrain fuel l) := by
  induction fuel generalizing l with
  | zero => simp [heapDrain]
  | succ n ih =>
    simp only [heapDrain]
    cases hp : heapPopMax l with
    | none => simp
    | some p =>
      obtain ⟨e, rest⟩ := p
      refine List.sorted_cons.mpr ⟨?_, ih rest⟩
      intro b hb
      exact heapPopMax_max l e rest hp b (heapDrain_subset n rest b hb)

/-- C5 counterexample: inserting entries with milestone indexes 1 then 2
and popping twice yields index 2 first — the pops are NOT in
smallest-index-first order. -/
theorem wait_priority_queue_pops_largest_first :
    heapDrainAll (heapInsert (heapInsert [] ⟨0, 1⟩) ⟨1, 2⟩) =
      [⟨1, 2⟩, ⟨0, 1⟩] ∧
    (heapDrainAll (heapInsert (heapInsert [] ⟨0, 1⟩) ⟨1, 2⟩)).map
        TransactionRequesterWorkerEntry.index = [2, 1] ∧
    ¬ List.Sorted (fun a b : Nat => a ≤ b)
      ((heapDrainAll (heapInsert (heapInsert [] ⟨0, 1⟩) ⟨1, 2⟩)).map
        TransactionRequesterWorkerEntry.index) := by
  refine ⟨by decide, by decide, ?_⟩
  intro hs
  rw [show (heapDrainAll (heapInsert (heapInsert [] ⟨0, 1⟩) ⟨1, 2⟩)).map
      TransactionRequesterWorkerEntry.index = [2, 1] from by decide] at hs
  have := List.rel_of_sorted_cons hs 1 (by simp)
  omega

/-- C5 amended: for every multiset of `TransactionRequesterWorkerEntry`
values in the wait priority queue, successive pops return exactly those
entries ordered by milestone index only, LARGEST index first (the entry
ordering compares only the milestone index, and the queue is a max-heap). -/
theorem wait_priority_queue_pops_descending
    (l : List TransactionRequesterWorkerEntry) :
    (heapDrainAll l).Perm l ∧
    List.Sorted (fun a b : TransactionRequesterWorkerEntry => b.index ≤ a.index)
      (heapDrainAll l) :=
  ⟨heapDrain_perm l.length l (Nat.le_refl _), heapDrain_sorted l.length l⟩

/-! ### Transaction requester -/

/-- C6 counterexample: with no handshaked peers, processing a popped entry
`(7, 3)` whose hash is neither a solid entry point nor stored does NOT
record `7 → 3` in the `requested` map (the code returns before the
insertion), contradicting the claim that the hash stays in `requested`
in this case. -/
theorem requester_no_peers_nothing_recorded :
    Tangle.empty.is_solid_entry_point 7 = false ∧
    Tangle.empty.contains_transaction 7 = false ∧
    mapGet (processEntry Tangle.empty [] 0 ⟨[], []⟩ 7 3).requested 7 = none := by
  decide

/-- C6 amended: for an entry `(hash, index)` whose hash is neither a solid
entry point nor stored in the tangle, processing records
`(hash → index)` in the `requested` map exactly when at least one peer is
handshaked: with peers, `requested` maps `hash` to `index` afterwards (and
the drawn peer is sent a `TransactionRequest`); with no handshaked peers
the whole requester state — `requested` map included — is unchanged. -/
theorem requester_records_iff_peers (t : Tangle) (peers : List Nat) (r : Nat)
    (st : RequesterState) (hash : Hash) (index : Nat)
    (hsep : t.is_solid_entry_point hash = false)
    (hcont : t.contains_transaction hash = false) :
    (peers ≠ [] →
      mapGet (processEntry t peers r st hash index).requested hash = some index) ∧
    (∀ epid, peers.get? r = some epid → peers ≠ [] →
      (processEntry t peers r st hash index).sentRequests =
        st.sentRequests ++ [(epid, hash)]) ∧
    (peers = [] → processEntry t peers r st hash index = st) := by
  unfold processEntry
  rw [hsep, hcont]
  simp only [Bool.not_false, Bool.and_self, if_true]
  unfold process_request
  refine ⟨?_, ?_, ?_⟩
  · intro hne
    have hemp : peers.isEmpty = false := by
      cases peers with
      | nil => exact absurd rfl hne
      | cons p ps => rfl
    rw [hemp]
    simp only [Bool.false_eq_true, if_false]
    cases hg : peers.get? r with
    | none => simp [mapGet_mapInsert_self]
    | some epid => simp [mapGet_mapInsert_self]
  · intro epid hg hne
    have hemp : peers.isEmpty = false := by
      cases peers with
      | nil => exact absurd rfl hne
      | cons p ps => rfl
    have hg' : peers[r]? = some epid := by
      rw [← List.get?_eq_getElem?]
      exact hg
    rw [hemp]
    simp [hg']
  · intro hnil
    subst hnil
    rfl

/-- Witness for the amended C6: one handshaked peer 42, draw 0, fresh
hash 7 at milestone index 3. -/
theorem requester_records_iff_peers_witness :
    Tangle.empty.is_solid_entry_point 7 = false ∧
    Tangle.empty.contains_transaction 7 = false ∧
    (([42] : List Nat) ≠ [] →
      mapGet (processEntry Tangle.empty [42] 0 ⟨[], []⟩ 7 3).requested 7 = some 3) ∧
    (∀ epid, ([42] : List Nat).get? 0 = some epid → ([42] : List Nat) ≠ [] →
      (processEntry Tangle.empty [42] 0 ⟨[], []⟩ 7 3).sentRequests =
        RequesterState.sentRequests ⟨[], []⟩ ++ [(epid, 7)]) ∧
    (([42] : List Nat) = [] → processEntry Tangle.empty [42] 0 ⟨[], []⟩ 7 3 = ⟨[], []⟩) :=
  ⟨by decide, by decide,
    (requester_records_iff_peers Tangle.empty [42] 0 ⟨[], []⟩ 7 3
      (by decide) (by decide)).1,
    (requester_records_iff_peers Tangle.empty [42] 0 ⟨[], []⟩ 7 3
      (by decide) (by decide)).2.1,
    (requester_records_iff_peers Tangle.empty [42] 0 ⟨[], []⟩ 7 3
      (by decide) (by decide)).2.2⟩

/-! ### Milestone validation -/

/-- C7: `validate_milestone` on a tail hash returns `UnknownTail` exactly
when the hash is absent from the tangle; `NotATail` exactly when the
transaction is present but its index is not 0; and `IncompleteBundle`
exactly when the hash holds a tail and one of the `security_level` further
transactions reached by following the trunk chain is missing from the
tangle — irrespective of the abstract builder validation outcome. -/
theorem validate_milestone_error_classification (t : Tangle) (securityLevel : Nat)
    (validateBuild : List Transaction → Except Nat Milestone) (tailHash : Hash) :
    (validate_milestone t securityLevel validateBuild tailHash =
        .error .UnknownTail ↔ t.get_transaction tailHash = none) ∧
    (validate_milestone t securityLevel validateBuild tailHash =
        .error .NotATail ↔
      ∃ tx, t.get_transaction tailHash = some tx ∧ tx.index ≠ 0) ∧
    (validate_milestone t securityLevel validateBuild tailHash =
        .error .IncompleteBundle ↔
      ∃ tx, t.get_transaction tailHash = some tx ∧ tx.index = 0 ∧
        collectTrunkChain t securityLevel tx = none) := by
  unfold validate_milestone
  cases hg : t.get_transaction tailHash with
  | none => simp
  | some tx =>
    by_cases htail : tx.index = 0
    · have ht : tx.is_tail = true := by
        simp [Transaction.is_tail, htail]
      simp only [ht, Bool.not_true, Bool.false_eq_true, if_false]
      cases hc : collectTrunkChain t securityLevel tx with
      | none => simp [htail, hc]
      | some chain =>
        cases hv : validateBuild (tx :: chain) with
        | error e => simp [htail, hv, hc]
        | ok m => simp [htail, hv, hc]
    · have ht : tx.is_tail = false := by
        simp [Transaction.is_tail, htail]
      simp [ht, htail]

/-! ### Message codec -/

/-- C8: for every message kind `K` whose valid sizes fit the 16-bit header
length field and whose `from_bytes` inverts `to_bytes` (the per-kind trait
contract, proved below for `TransactionBroadcast`), decoding the encoding
round-trips: with `bytes = m.into_full_bytes()`, `K::from_full_bytes`
applied to the 3-byte header `bytes[0..3]` and body `bytes[3..]` returns
`Ok(m)`. -/
theorem message_full_bytes_round_trip {α : Type} (K : MessageKind α) (m : α)
    (hlen : (K.to_bytes m).length = K.size m)
    (hdec : K.from_bytes (K.to_bytes m) = .ok m)
    (hsize : K.size m < 65536) :
    K.from_full_bytes ((K.into_full_bytes m).take HEADER_SIZE)
      ((K.into_full_bytes m).drop HEADER_SIZE) = .ok m := by
  have htake : (K.into_full_bytes m).take HEADER_SIZE =
      [K.id, K.size m % 65536 / 256, K.size m % 65536 % 256] := rfl
  have hdrop : (K.into_full_bytes m).drop HEADER_SIZE = K.to_bytes m := rfl
  rw [htake, hdrop]
  unfold MessageKind.from_full_bytes
  have hg1 : ([K.id, K.size m % 65536 / 256, K.size m % 65536 % 256].getD 1 0) =
      K.size m % 65536 / 256 := rfl
  have hg2 : ([K.id, K.size m % 65536 / 256, K.size m % 65536 % 256].getD 2 0) =
      K.size m % 65536 % 256 := rfl
  have hadv : ([K.id, K.size m % 65536 / 256, K.size m % 65536 % 256].getD 1 0) * 256 +
      [K.id, K.size m % 65536 / 256, K.size m % 65536 % 256].getD 2 0 = K.size m := by
    rw [hg1, hg2]
    omega
  simp only [hadv, hlen]
  simp [hdec]

/-- Witness for C8: a minimum-size (292-byte) `TransactionBroadcast`
round-trips through `into_full_bytes`/`from_full_bytes`. -/
theorem message_full_bytes_round_trip_witness :
    (TransactionBroadcast.kind.to_bytes smallBroadcast).length =
      TransactionBroadcast.kind.size smallBroadcast ∧
    TransactionBroadcast.kind.from_bytes
      (TransactionBroadcast.kind.to_bytes smallBroadcast) = .ok smallBroadcast ∧
    TransactionBroadcast.kind.size smallBroadcast < 65536 ∧
    TransactionBroadcast.kind.from_full_bytes
      ((TransactionBroadcast.kind.into_full_bytes smallBroadcast).take HEADER_SIZE)
      ((TransactionBroadcast.kind.into_full_bytes smallBroadcast).drop HEADER_SIZE) =
      .ok smallBroadcast :=
  ⟨rfl,
    by simp [TransactionBroadcast.kind, smallBroadcast],
    by simp [TransactionBroadcast.kind, smallBroadcast],
    message_full_bytes_round_trip TransactionBroadcast.kind smallBroadcast
      rfl (by simp [TransactionBroadcast.kind, smallBroadcast])
      (by simp [TransactionBroadcast.kind, smallBroadcast])⟩

/-- C10: `into_full_bytes` writes `size % 2^16` into the two big-endian
header length bytes; when `size < 65536` the advertised length equals the
size (hence the payload length); and for a body of 65536 bytes or more the
advertised length differs from the body length, so `from_full_bytes` on
the result fails with `InvalidAdvertisedLength(size % 65536, size)`. -/
theorem into_full_bytes_advertises_size_mod {α : Type} (K : MessageKind α) (m : α)
    (hlen : (K.to_bytes m).length = K.size m) :
    ((K.into_full_bytes m).getD 1 0) * 256 + (K.into_full_bytes m).getD 2 0 =
      K.size m % 65536 ∧
    (K.size m < 65536 →
      ((K.into_full_bytes m).getD 1 0) * 256 + (K.into_full_bytes m).getD 2 0 =
        K.size m) ∧
    (65536 ≤ K.size m →
      K.from_full_bytes ((K.into_full_bytes m).take HEADER_SIZE)
        ((K.into_full_bytes m).drop HEADER_SIZE) =
        .error (.InvalidAdvertisedLength (K.size m % 65536) (K.size m))) := by
  have hb1 : (K.into_full_bytes m).getD 1 0 = K.size m % 65536 / 256 := rfl
  have hb2 : (K.into_full_bytes m).getD 2 0 = K.size m % 65536 % 256 := rfl
  have hadv : ((K.into_full_bytes m).getD 1 0) * 256 +
      (K.into_full_bytes m).getD 2 0 = K.size m % 65536 := by
    rw [hb1, hb2]
    omega
  refine ⟨hadv, ?_, ?_⟩
  · intro hsmall
    rw [hadv, Nat.mod_eq_of_lt hsmall]
  · intro hbig
    have htake : (K.into_full_bytes m).take HEADER_SIZE =
        [K.id, K.size m % 65536 / 256, K.size m % 65536 % 256] := rfl
    have hdrop : (K.into_full_bytes m).drop HEADER_SIZE = K.to_bytes m := rfl
    rw [htake, hdrop]
    unfold MessageKind.from_full_bytes
    have hg1 : ([K.id, K.size m % 65536 / 256, K.size m % 65536 % 256].getD 1 0) =
        K.size m % 65536 / 256 := rfl
    have hg2 : ([K.id, K.size m % 65536 / 256, K.size m % 65536 % 256].getD 2 0) =
        K.size m % 65536 % 256 := rfl
    have hadv' : ([K.id, K.size m % 65536 / 256, K.size m % 65536 % 256].getD 1 0) * 256 +
        [K.id, K.size m % 65536 / 256, K.size m % 65536 % 256].getD 2 0 =
        K.size m % 65536 := by
      rw [hg1, hg2]
      omega
    simp only [hadv', hlen]
    have hne' : K.size m % 65536 ≠ K.size m := by
      have : K.size m % 65536 < 65536 := Nat.mod_lt _ (by omega)
      omega
    simp [hne']

/-- Witness for C10: a `TransactionBroadcast` with a 65536-byte body
advertises `65536 % 65536 = 0` and fails decoding with
`InvalidAdvertisedLength`. -/
theorem into_full_bytes_advertises_size_mod_witness :
    (TransactionBroadcast.kind.to_bytes bigBroadcast).length =
      TransactionBroadcast.kind.size bigBroadcast ∧
    (((TransactionBroadcast.kind.into_full_bytes bigBroadcast).getD 1 0) * 256 +
        (TransactionBroadcast.kind.into_full_bytes bigBroadcast).getD 2 0 =
      TransactionBroadcast.kind.size bigBroadcast % 65536 ∧
    (TransactionBroadcast.kind.size bigBroadcast < 65536 →
      ((TransactionBroadcast.kind.into_full_bytes bigBroadcast).getD 1 0) * 256 +
        (TransactionBroadcast.kind.into_full_bytes bigBroadcast).getD 2 0 =
        TransactionBroadcast.kind.size bigBroadcast) ∧
    (65536 ≤ TransactionBroadcast.kind.size bigBroadcast →
      TransactionBroadcast.kind.from_full_bytes
        ((TransactionBroadcast.kind.into_full_bytes bigBroadcast).take HEADER_SIZE)
        ((TransactionBroadcast.kind.into_full_bytes bigBroadcast).drop HEADER_SIZE) =
        .error (.InvalidAdvertisedLength
          (TransactionBroadcast.kind.size bigBroadcast % 65536)
          (TransactionBroadcast.kind.size bigBroadcast)))) :=
  ⟨rfl, into_full_bytes_advertises_size_mod TransactionBroadcast.kind bigBroadcast rfl⟩

/-! ### Ledger diff -/

theorem diffAdd_get_self (m : List (Nat × Int)) (a : Nat) (v : Int) :
    mapGet (diffAdd m a v) a = some ((mapGet m a).getD 0 + v) := by
  induction m with
  | nil => simp [diffAdd, mapGet]
  | cons p rest ih =>
    obtain ⟨a', x⟩ := p
    by_cases h : a' = a
    · simp [diffAdd, mapGet, h]
    · simp [diffAdd, mapGet, h, ih]

theorem diffAdd_get_ne (m : List (Nat × Int)) (a a' : Nat) (v : Int)
    (h : a' ≠ a) : mapGet (diffAdd m a v) a' = mapGet m a' := by
  have hk : ¬ a = a' := fun hh => h hh.symm
  induction m with
  | nil => simp [diffAdd, mapGet, hk]
  | cons p rest ih =>
    obtain ⟨a₀, x⟩ := p
    by_cases h0 : a₀ = a
    · subst h0
      simp [diffAdd, mapGet, hk]
    · by_cases h1 : a₀ = a'
      · simp [diffAdd, mapGet, h0, h1, h]
      · simp [diffAdd, mapGet, h0, h1, ih]

theorem diffAdd_sum (m : List (Nat × Int)) (a : Nat) (v : Int) :
    ((diffAdd m a v).map Prod.snd).sum = (m.map Prod.snd).sum + v := by
  induction m with
  | nil => simp [diffAdd]
  | cons p rest ih =>
    obtain ⟨a', x⟩ := p
    by_cases h : a' = a
    · simp [diffAdd, h]
      ring
    · simp [diffAdd, h, ih]
      ring

theorem ledger_fold_val (b : List Transaction) (m : List (Nat × Int)) (a : Nat) :
    (mapGet (b.foldl ledgerStep m) a).getD 0 =
      (mapGet m a).getD 0 +
        ((b.filter (fun tx => tx.address == a)).map Transaction.value).sum := by
  induction b generalizing m with
  | nil => simp
  | cons tx rest ih =>
    rw [List.foldl_cons, ih]
    by_cases hv : tx.value = 0
    · have hstep : ledgerStep m tx = m := by
        simp [ledgerStep, hv]
      rw [hstep]
      by_cases ha : tx.address = a
      · simp [List.filter_cons, ha, hv]
      · simp [List.filter_cons, ha]
    · have hstep : ledgerStep m tx = diffAdd m tx.address tx.value := by
        simp [ledgerStep, hv]
      rw [hstep]
      by_cases ha : tx.address = a
      · subst ha
        rw [diffAdd_get_self]
        simp [List.filter_cons]
        ring
      · rw [diffAdd_get_ne m tx.address a tx.value (fun hh => ha hh.symm)]
        simp [List.filter_cons, ha]

theorem ledger_fold_sum (b : List Transaction) (m : List (Nat × Int)) :
    ((b.foldl ledgerStep m).map Prod.snd).sum =
      (m.map Prod.snd).sum + (b.map Transaction.value).sum := by
  induction b generalizing m with
  | nil => simp
  | cons tx rest ih =>
    rw [List.foldl_cons, ih]
    by_cases hv : tx.value = 0
    · have hstep : ledgerStep m tx = m := by
        simp [ledgerStep, hv]
      rw [hstep]
      simp [hv]
    · have hstep : ledgerStep m tx = diffAdd m tx.address tx.value := by
        simp [ledgerStep, hv]
      rw [hstep, diffAdd_sum]
      simp
      ring

theorem ledger_fold_isSome (b : List Transaction) (m : List (Nat × Int)) (a : Nat) :
    (mapGet (b.foldl ledgerStep m) a).isSome ↔
      (mapGet m a).isSome ∨ ∃ tx ∈ b, tx.address = a ∧ tx.value ≠ 0 := by
  induction b generalizing m with
  | nil => simp
  | cons tx rest ih =>
    rw [List.foldl_cons, ih]
    by_cases hv : tx.value = 0
    · have hstep : ledgerStep m tx = m := by
        simp [ledgerStep, hv]
      rw [hstep]
      constructor
      · rintro (hm | hex)
        · exact Or.inl hm
        · right
          obtain ⟨tx', htx', ha', hv'⟩ := hex
          exact ⟨tx', List.mem_cons_of_mem tx htx', ha', hv'⟩
      · rintro (hm | hex)
        · exact Or.inl hm
        · obtain ⟨tx', htx', ha', hv'⟩ := hex
          rcases List.mem_cons.mp htx' with h1 | h1
          · subst h1
            exact absurd hv hv'
          · exact Or.inr ⟨tx', h1, ha', hv'⟩
    · have hstep : ledgerStep m tx = diffAdd m tx.address tx.value := by
        simp [ledgerStep, hv]
      rw [hstep]
      by_cases ha : tx.address = a
      · subst ha
        have hsome : (mapGet (diffAdd m tx.address tx.value) tx.address).isSome = true := by
          rw [diffAdd_get_self]
          rfl
        rw [hsome]
        constructor
        · intro h'
          exact Or.inr ⟨tx, List.mem_cons_self tx rest, rfl, hv⟩
        · intro h'
          exact Or.inl rfl
      · rw [diffAdd_get_ne m tx.address a tx.value (fun hh => ha hh.symm)]
        constructor
        · rintro (hm | hex)
          · exact Or.inl hm
          · right
            obtain ⟨tx', htx', ha', hv'⟩ := hex
            exact ⟨tx', List.mem_cons_of_mem tx htx', ha', hv'⟩
        · rintro (hm | hex)
          · exact Or.inl hm
          · obtain ⟨tx', htx', ha', hv'⟩ := hex
            rcases List.mem_cons.mp htx' with h1 | h1
            · subst h1
              exact absurd ha' ha
            · exact Or.inr ⟨tx', h1, ha', hv'⟩

/-- C9 counterexample: in the bundle `zeroNetBundle` the net value change
of address 9 is zero (`+5 - 5`), yet 9 DOES appear as a key of
`ledger_diff` (with value 0) — the code only skips individual zero values,
it does not remove addresses whose nonzero values cancel. -/
theorem ledger_diff_zero_net_address_present :
    ((zeroNetBundle.filter (fun tx => tx.address == 9)).map Transaction.value).sum = 0 ∧
    mapGet (ledger_diff zeroNetBundle) 9 = some 0 := by
  constructor
  · decide
  · decide

/-- C9 amended: `ledger_diff(B)` maps each address it holds to the sum of
the values of `B`'s transactions with that address; when `B` is
value-balanced (its values sum to 0) the diff's values sum to 0; and an
address appears as a key exactly when some transaction of `B` at that
address has a nonzero value (so an address whose individual values are all
zero is absent, but an address whose nonzero values cancel to net zero
still appears, with value 0). -/
theorem ledger_diff_spec (b : List Transaction) :
    (∀ a s, mapGet (ledger_diff b) a = some s →
      s = ((b.filter (fun tx => tx.address == a)).map Transaction.value).sum) ∧
    ((b.map Transaction.value).sum = 0 →
      ((ledger_diff b).map Prod.snd).sum = 0) ∧
    (∀ a, (mapGet (ledger_diff b) a).isSome ↔
      ∃ tx ∈ b, tx.address = a ∧ tx.value ≠ 0) := by
  refine ⟨?_, ?_, ?_⟩
  · intro a s hs
    have := ledger_fold_val b [] a
    unfold ledger_diff at hs
    rw [hs] at this
    simpa [mapGet] using this
  · intro hbal
    unfold ledger_diff
    rw [ledger_fold_sum b [], hbal]
    simp
  · intro a
    have := ledger_fold_isSome b [] a
    unfold ledger_diff
    simpa [mapGet] using this

end BeeP
